import Mathlib

/-!
Verification of the text-normalization and chunking core of
`document_viewer.py` (class `PDFCleaner`).

Texts are modelled as `List Char`; Python integers are `Int`.  The model is
restricted to the ASCII character classes: the regex classes `\w`, `\s` and
`str.isdigit` agree with the Lean `Char` predicates used here on ASCII input,
which is the range exercised by every claim.

`chunk_text` in the source is a `while` loop whose cursor does not always
advance, so the loop is not total; it is embedded with an explicit fuel
argument.  `text.length + 1` units of fuel are enough for every terminating
parameter combination (each consumed unit strictly advances the cursor, which
starts at `0` and stops at `length`), so `chunk_text ... = none` exactly marks
the parameter combinations on which the Python loop does not terminate.
-/

/-- Python slice `text[a:b]` (negative indices count from the end, and both
bounds are clamped to the text). -/
def pySlice (text : List Char) (a b : Int) : List Char :=
  let L : Int := text.length
  let a2 : Int := if a < 0 then max 0 (L + a) else min a L
  let b2 : Int := if b < 0 then max 0 (L + b) else min b L
  (text.take b2.toNat).drop a2.toNat

/-- The cursor update of one iteration of the loop in `PDFCleaner.chunk_text`:
`start = end - chunk_overlap`, except that the guard `if start <= chunks[-1][1]`
(comparing with the start just appended) forces `start = end`. -/
def nextCursor (text : List Char) (size ovl start : Int) : Int :=
  if min (start + size) (text.length : Int) - ovl ≤ start then
    min (start + size) (text.length : Int)
  else min (start + size) (text.length : Int) - ovl

/-- The loop of `PDFCleaner.chunk_text`, with fuel.  Returns `none` when the
fuel is exhausted while the loop condition `start < len(text)` still holds. -/
def chunkLoop (text : List Char) (size ovl : Int) :
    Nat → Int → Option (List (List Char × Int × Int))
  | 0, start => if start < (text.length : Int) then none else some []
  | fuel + 1, start =>
    if start < (text.length : Int) then
      (chunkLoop text size ovl fuel (nextCursor text size ovl start)).map
        (fun rest =>
          (pySlice text start (min (start + size) (text.length : Int)),
           start, min (start + size) (text.length : Int)) :: rest)
    else some []

/-- `PDFCleaner.chunk_text(text, chunk_size, chunk_overlap)`: the list of
`(chunk, start, end)` tuples, or `none` when the loop does not terminate
within `length + 1` iterations (a terminating run needs at most that many). -/
def chunk_text (text : List Char) (size ovl : Int) :
    Option (List (List Char × Int × Int)) :=
  chunkLoop text size ovl (text.length + 1) 0

/-- Python regex class `\s` (its one-byte part), as used by `re` and by
`str.strip()`. -/
def isPySpace (c : Char) : Bool :=
  c = ' ' || c = '\t' || c = '\n' || c = '\r' || c = '\x0b' || c = '\x0c' ||
  c = '\x1c' || c = '\x1d' || c = '\x1e' || c = '\x1f' || c = '\x85'

/-- Python regex class `\w` (its ASCII part): letters, digits, underscore. -/
def isWordChar (c : Char) : Bool :=
  c.isAlphanum || c = '_'

/-- The six punctuation marks of the stage-4 regexes `[.,!?;:]`. -/
def isPunct4 (c : Char) : Bool :=
  c = '.' || c = ',' || c = '!' || c = '?' || c = ';' || c = ':'

/-- The character class kept by stage 3 of `clean_text`: the complement of
the negated class of the source regex, whose members are `\w`, `\s`, the six
punctuation marks, parentheses, the hyphen, the em dash (U+2014), the en dash
(U+2013), the ASCII double quote (`Char.ofNat 34`, written twice in the
source class), the straight apostrophe (`Char.ofNat 39`), the backtick
(`Char.ofNat 96`) and the line break. -/
def isAllowedChar (c : Char) : Bool :=
  isWordChar c || isPySpace c || isPunct4 c ||
  c = '(' || c = ')' || c = '-' || c = '—' || c = '–' ||
  c = Char.ofNat 34 || c = Char.ofNat 39 || c = Char.ofNat 96 || c = '\n'

/-- Stage 1 of `clean_text`: `re.sub(r'(?<!\n)\n(?!\n)', ' ', text)` — replace
every line break that is neither preceded nor followed by a line break with a
space.  `prev` is the character of the original text just before the current
position (`none` at the start of the text). -/
def foldLineBreaks (prev : Option Char) : List Char → List Char
  | [] => []
  | c :: rest =>
    if c = '\n' ∧ prev ≠ some '\n' ∧ rest.head? ≠ some '\n' then
      ' ' :: foldLineBreaks (some c) rest
    else c :: foldLineBreaks (some c) rest

/-- Stage 2 of `clean_text`: `re.sub(r' +', ' ', text)` — collapse each run of
spaces to a single space (keeping the last space of the run). -/
def collapseSpaces : List Char → List Char
  | [] => []
  | c :: rest =>
    if c = ' ' ∧ rest.head? = some ' ' then collapseSpaces rest
    else c :: collapseSpaces rest

/-- Whether the next non-whitespace character is one of the six punctuation
marks: then stage 4a removes the whitespace run in front of it. -/
def punctNext (l : List Char) : Bool :=
  match (l.dropWhile isPySpace).head? with
  | some p => isPunct4 p
  | none => false

/-- Stage 4a of `clean_text`: `re.sub(r'\s+([.,!?;:])', r'\1', text)` — delete
every whitespace run that immediately precedes one of the six punctuation
marks. -/
def stripSpaceBeforePunct : List Char → List Char
  | [] => []
  | c :: rest =>
    if isPySpace c ∧ punctNext rest then stripSpaceBeforePunct rest
    else c :: stripSpaceBeforePunct rest

/-- Stage 4b of `clean_text`, as a left-to-right scan: when `skipping` the
scanner stands right after an emitted punctuation mark (plus its one inserted
space) and is still swallowing the whitespace run that followed the mark in
the input. -/
def spaceAfterPunctAux : Bool → List Char → List Char
  | _, [] => []
  | skipping, c :: rest =>
    if skipping ∧ isPySpace c then spaceAfterPunctAux true rest
    else if isPunct4 c then c :: ' ' :: spaceAfterPunctAux true rest
    else c :: spaceAfterPunctAux false rest

/-- Stage 4b of `clean_text`: `re.sub(r'([.,!?;:])\s*', r'\1 ', text)` — each
of the six punctuation marks swallows the whitespace run after it and is given
exactly one trailing space. -/
def spaceAfterPunct (l : List Char) : List Char :=
  spaceAfterPunctAux false l

/-- `text.split('\n')` from stage 5 of `clean_text`. -/
def splitNL : List Char → List (List Char)
  | [] => [[]]
  | c :: rest =>
    if c = '\n' then [] :: splitNL rest
    else
      match splitNL rest with
      | [] => [[c]]
      | h :: t => (c :: h) :: t

/-- `'\n\n'.join(lines)` from stage 5 of `clean_text`. -/
def joinNN : List (List Char) → List Char
  | [] => []
  | [x] => x
  | x :: xs => x ++ '\n' :: '\n' :: joinNN xs

/-- Python `str.strip()`: remove leading and trailing whitespace. -/
def pyStrip (l : List Char) : List Char :=
  ((l.dropWhile isPySpace).reverse.dropWhile isPySpace).reverse

/-- Python `str.isdigit()` (ASCII input): nonempty and all characters are
digits. -/
def pyIsDigit (l : List Char) : Bool :=
  !l.isEmpty && l.all Char.isDigit

/-- Stage 5 of `clean_text` (`remove_headers`): split on line breaks, strip
each line, keep only stripped lines longer than 20 characters that are not
pure digit runs, and rejoin the survivors with a blank line. -/
def removeShortLines (t : List Char) : List Char :=
  joinNN (((splitNL t).map pyStrip).filter
    (fun l => decide (20 < l.length) && !pyIsDigit l))

/-- Stage 6 of `clean_text`, as a left-to-right scan: `n` counts how many
line breaks of the current run have been seen; only the first two of a run
are kept. -/
def squeezeNLAux : Nat → List Char → List Char
  | _, [] => []
  | n, c :: rest =>
    if c = '\n' then
      if n < 2 then '\n' :: squeezeNLAux (n + 1) rest
      else squeezeNLAux (n + 1) rest
    else c :: squeezeNLAux 0 rest

/-- Stage 6 of `clean_text`: `re.sub(r'\n{3,}', '\n\n', text)` — collapse
every run of three or more line breaks to exactly two. -/
def squeezeNL (l : List Char) : List Char :=
  squeezeNLAux 0 l

/-- `PDFCleaner.clean_text(text, remove_line_breaks, remove_headers)`: the
ordered cleaning pipeline (empty input returns the empty text at once). -/
def clean_text (text : List Char) (remove_line_breaks remove_headers : Bool) :
    List Char :=
  if text = [] then []
  else
    let t1 := if remove_line_breaks then foldLineBreaks none text else text
    let t2 := collapseSpaces t1
    let t3 := t2.filter isAllowedChar
    let t4 := spaceAfterPunct (stripSpaceBeforePunct t3)
    let t5 := if remove_headers then removeShortLines t4 else t4
    pyStrip (squeezeNL t5)

/-- One `str.replace(c, s)` call on a text. -/
def replaceChar (c : Char) (s : List Char) (l : List Char) : List Char :=
  l.flatMap (fun x => if x = c then s else [x])

/-- The escaping chain of `highlight_chunks_html`:
`.replace('&','&amp;').replace('<','&lt;').replace('>','&gt;').replace('\n','<br>')`. -/
def escapeHtml (l : List Char) : List Char :=
  replaceChar '\n' ("<br>").toList
    (replaceChar '>' ("&gt;").toList
      (replaceChar '<' ("&lt;").toList
        (replaceChar '&' ("&amp;").toList l)))

/-- The fixed highlight palette of `highlight_chunks_html`. -/
def colors : List (List Char) :=
  [("#FFF59D").toList, ("#B3E5FC").toList, ("#C8E6C9").toList,
   ("#F8BBD0").toList, ("#D1C4E9").toList, ("#FFCCBC").toList]

/-- The opening of the span tag built by the f-string of
`highlight_chunks_html`, for a given palette color. -/
def spanOpen (color : List Char) : List Char :=
  ("<span style=\"background-color: ").toList ++ color ++
    ("; padding: 2px 4px; border-radius: 3px;\">").toList

/-- The closing span tag of `highlight_chunks_html`. -/
def spanClose : List Char := ("</span>").toList

/-- The part-collecting loop of `highlight_chunks_html`: `idx` counts chunks
(for the palette), `lastEnd` is the end of the previous chunk.  Gap text
between `lastEnd` and the next chunk start is emitted verbatim (it is NOT
escaped in the source); chunk text and the trailing text after the last chunk
are escaped. -/
def highlightParts (text : List Char) :
    Nat → Int → List (List Char × Int × Int) → List (List Char)
  | _, lastEnd, [] =>
    if lastEnd < (text.length : Int) then
      [escapeHtml (pySlice text lastEnd (text.length : Int))]
    else []
  | idx, lastEnd, (_, s, e) :: rest =>
    (if lastEnd < s then [pySlice text lastEnd s] else []) ++
    (spanOpen (colors.getD (idx % 6) []) ++ escapeHtml (pySlice text s e) ++ spanClose)
      :: highlightParts text (idx + 1) e rest

/-- `PDFCleaner.highlight_chunks_html(text, chunk_size, chunk_overlap)`
(`none` when the underlying chunking loop does not terminate). -/
def highlight_chunks_html (text : List Char) (size ovl : Int) :
    Option (List Char) :=
  (chunk_text text size ovl).map (fun chunks =>
    if chunks = [] then text else (highlightParts text 0 0 chunks).flatten)

/-- Modelled from the spec (section 4.2, Highlighter): the same renderer with
the escaping rule applied to the verbatim gap text as well, per "escaping must
occur on the verbatim-gap text too, not only chunk text".  Used to compare the
source renderer against the fully-escaping one. -/
def highlightPartsSpec (text : List Char) :
    Nat → Int → List (List Char × Int × Int) → List (List Char)
  | _, lastEnd, [] =>
    if lastEnd < (text.length : Int) then
      [escapeHtml (pySlice text lastEnd (text.length : Int))]
    else []
  | idx, lastEnd, (_, s, e) :: rest =>
    (if lastEnd < s then [escapeHtml (pySlice text lastEnd s)] else []) ++
    (spanOpen (colors.getD (idx % 6) []) ++ escapeHtml (pySlice text s e) ++ spanClose)
      :: highlightPartsSpec text (idx + 1) e rest

/-- Modelled from the spec (section 4.2): `highlight_chunks_html` with every
emitted segment escaped, gap text included. -/
def highlightHtmlSpec (text : List Char) (size ovl : Int) :
    Option (List Char) :=
  (chunk_text text size ovl).map (fun chunks =>
    if chunks = [] then text else (highlightPartsSpec text 0 0 chunks).flatten)

/-- The character class used by the amended idempotence claim: ASCII letters,
ASCII digits and the space character. -/
def plainChar (c : Char) : Bool :=
  c.isAlpha || c.isDigit || c = ' '

/-- Two adjacent characters are not both spaces: the invariant that makes the
space-collapsing stage a no-op. -/
def spaceRel (a b : Char) : Prop :=
  ¬ (a = ' ' ∧ b = ' ')

/-- Claim C1 (counterexample): the spec scenario
`chunk("abcdefghij", size=4, overlap=1)` does not return the claimed
three-chunk list. -/
theorem chunk_scenario_not_three_chunks :
    chunk_text ("abcdefghij").toList 4 1 ≠
      some [(("abcd").toList, 0, 4), (("defg").toList, 3, 7),
            (("ghij").toList, 6, 10)] := by
  decide

/-- Claim C1 (amended): `chunk("abcdefghij", 4, 1)` returns exactly four
chunks: the start cursor advances by `size - overlap = 3` on the first three
steps, and after the chunk ending at 10 the cursor moves to `10 - 1 = 9 < 10`,
so the loop emits a final short chunk `("j", 9, 10)`. -/
theorem chunk_scenario_four_chunks :
    chunk_text ("abcdefghij").toList 4 1 =
      some [(("abcd").toList, 0, 4), (("defg").toList, 3, 7),
            (("ghij").toList, 6, 10), (("j").toList, 9, 10)] := by
  decide

/-- Claim C2 (counterexample): with `size = 0`, `overlap = 0` on the text
`"a"` the loop is entered (`0 < 1`) and the guard forces the cursor back to
`end = 0`: the cursor does not advance, the loop state repeats forever, and
the fuelled model exhausts its fuel (`none`). -/
theorem chunk_guard_stalls_on_size_zero :
    nextCursor ("a").toList 0 0 0 = 0 ∧ ((0 : Int) < (("a").toList.length : Int))
      ∧ chunk_text ("a").toList 0 0 = none := by
  refine ⟨by decide, by decide, by decide⟩

/-- From a cursor at or past the end of the text the loop emits nothing. -/
theorem chunkLoop_of_ge (text : List Char) (size ovl : Int) (fuel : Nat)
    (start : Int) (h : ¬ start < (text.length : Int)) :
    chunkLoop text size ovl fuel start = some [] := by
  cases fuel <;> simp [chunkLoop, h]

/-- With a positive window the cursor strictly advances on every iteration
of the chunking loop, whatever the overlap. -/
theorem nextCursor_gt (text : List Char) (size ovl start : Int)
    (hs : 1 ≤ size) (h : start < (text.length : Int)) :
    start < nextCursor text size ovl start := by
  unfold nextCursor
  split <;> omega

/-- With a positive window `len - start` units of fuel suffice: the loop
terminates. -/
theorem chunkLoop_isSome (text : List Char) (size ovl : Int) (hs : 1 ≤ size) :
    ∀ fuel : Nat, ∀ start : Int, ((text.length : Int) - start).toNat ≤ fuel →
      (chunkLoop text size ovl fuel start).isSome := by
  intro fuel
  induction fuel with
  | zero =>
    intro start h
    rw [chunkLoop_of_ge text size ovl 0 start (by omega)]
    rfl
  | succ n ih =>
    intro start h
    by_cases hL : start < (text.length : Int)
    · have hadv := nextCursor_gt text size ovl start hs hL
      have hrec := ih (nextCursor text size ovl start) (by omega)
      rw [chunkLoop, if_pos hL, Option.isSome_map']
      exact hrec
    · rw [chunkLoop_of_ge text size ovl _ start hL]
      rfl

/-- The first chunk the loop emits starts exactly at the cursor. -/
theorem chunkLoop_head (text : List Char) (size ovl : Int) (fuel : Nat)
    (start : Int) (c : List Char × Int × Int)
    (rest : List (List Char × Int × Int))
    (hEq : chunkLoop text size ovl fuel start = some (c :: rest)) :
    c.2.1 = start := by
  cases fuel with
  | zero =>
    rw [chunkLoop] at hEq
    split at hEq
    · exact absurd hEq (by simp)
    · simp at hEq
  | succ n =>
    rw [chunkLoop] at hEq
    split at hEq
    · rw [Option.map_eq_some'] at hEq
      obtain ⟨r, _, hcons⟩ := hEq
      have := (List.cons.injEq _ _ _ _).mp hcons
      rw [← this.1]
    · simp at hEq

/-- Soundness of the emitted chunks: with a positive window and a
non-negative cursor, every chunk is the exact slice of the text at its
offsets, the offsets are within bounds, every chunk is non-empty, and the
starts are strictly increasing. -/
theorem chunkLoop_sound (text : List Char) (size ovl : Int) (hs : 1 ≤ size) :
    ∀ fuel : Nat, ∀ start : Int, ∀ l, 0 ≤ start →
      chunkLoop text size ovl fuel start = some l →
      (∀ c ∈ l, c.1 = pySlice text c.2.1 c.2.2 ∧ 0 ≤ c.2.1 ∧ c.2.1 < c.2.2 ∧
        c.2.2 ≤ (text.length : Int) ∧ start ≤ c.2.1) ∧
      List.Chain' (fun a b => a.2.1 < b.2.1) l := by
  intro fuel
  induction fuel with
  | zero =>
    intro start l h0 hEq
    rw [chunkLoop] at hEq
    split at hEq
    · exact absurd hEq (by simp)
    · injection hEq with h
      rw [← h]
      exact ⟨by simp, by simp⟩
  | succ n ih =>
    intro start l h0 hEq
    rw [chunkLoop] at hEq
    split at hEq
    case isTrue hL =>
      rw [Option.map_eq_some'] at hEq
      obtain ⟨rest, hrest, hl⟩ := hEq
      have hadv := nextCursor_gt text size ovl start hs hL
      obtain ⟨hmem, hchain⟩ :=
        ih (nextCursor text size ovl start) rest (by omega) hrest
      rw [← hl]
      constructor
      · intro c hc
        rcases List.mem_cons.mp hc with rfl | hc2
        · refine ⟨rfl, h0, ?_, ?_, le_refl _⟩
          · show start < min (start + size) (text.length : Int)
            omega
          · show min (start + size) (text.length : Int) ≤ (text.length : Int)
            omega
        · obtain ⟨h1, h2, h3, h4, h5⟩ := hmem c hc2
          exact ⟨h1, h2, h3, h4, by omega⟩
      · rw [List.chain'_cons']
        refine ⟨?_, hchain⟩
        intro b hb
        cases rest with
        | nil => simp at hb
        | cons c2 r2 =>
          simp only [List.head?_cons, Option.mem_def, Option.some.injEq] at hb
          have hc2 := chunkLoop_head text size ovl n _ c2 r2 hrest
          simp only [← hb, hc2]
          exact hadv
    case isFalse hL =>
      injection hEq with h
      rw [← h]
      exact ⟨by simp, by simp⟩

/-- With a non-negative overlap the next chunk never starts past the current
chunk's end: the chunk series has no gap. -/
theorem chunkLoop_gapless (text : List Char) (size ovl : Int) (ho : 0 ≤ ovl) :
    ∀ fuel : Nat, ∀ start : Int, ∀ l,
      chunkLoop text size ovl fuel start = some l →
      List.Chain' (fun a b => b.2.1 ≤ a.2.2) l := by
  intro fuel
  induction fuel with
  | zero =>
    intro start l hEq
    rw [chunkLoop] at hEq
    split at hEq
    · exact absurd hEq (by simp)
    · injection hEq with h
      rw [← h]
      simp
  | succ n ih =>
    intro start l hEq
    rw [chunkLoop] at hEq
    split at hEq
    case isTrue hL =>
      rw [Option.map_eq_some'] at hEq
      obtain ⟨rest, hrest, hl⟩ := hEq
      rw [← hl]
      rw [List.chain'_cons']
      refine ⟨?_, ih (nextCursor text size ovl start) rest hrest⟩
      intro b hb
      cases rest with
      | nil => simp at hb
      | cons c2 r2 =>
        simp only [List.head?_cons, Option.mem_def, Option.some.injEq] at hb
        have hc2 := chunkLoop_head text size ovl n _ c2 r2 hrest
        have hle : nextCursor text size ovl start ≤
            min (start + size) (text.length : Int) := by
          unfold nextCursor
          split <;> omega
        simp only [← hb, hc2]
        exact hle
    case isFalse hL =>
      injection hEq with h
      rw [← h]
      simp

/-- Upper bound on the number of chunks: with `0 <= overlap < size` a
successful run from cursor `start` emits at most
`ceil((len - start) / (size - overlap)) + 1` chunks. -/
theorem chunkLoop_length_le (text : List Char) (size ovl : Int)
    (hs : 1 ≤ size) (ho : 0 ≤ ovl) (hos : ovl < size) :
    ∀ fuel : Nat, ∀ start : Int, ∀ l, 0 ≤ start →
      chunkLoop text size ovl fuel start = some l →
      l.length ≤ (((text.length : Int) - start).toNat + (size - ovl).toNat - 1) /
        (size - ovl).toNat + 1 := by
  have hd : 0 < (size - ovl).toNat := by omega
  intro fuel
  induction fuel with
  | zero =>
    intro start l h0 hEq
    rw [chunkLoop] at hEq
    split at hEq
    · exact absurd hEq (by simp)
    · injection hEq with h
      rw [← h]
      exact Nat.zero_le _
  | succ n ih =>
    intro start l h0 hEq
    rw [chunkLoop] at hEq
    split at hEq
    case isTrue hL =>
      rw [Option.map_eq_some'] at hEq
      obtain ⟨rest, hrest, hl⟩ := hEq
      rw [← hl, List.length_cons]
      by_cases hnxL : nextCursor text size ovl start < (text.length : Int)
      · by_cases heL : start + size < (text.length : Int)
        · have hnxval : nextCursor text size ovl start = start + (size - ovl) := by
            unfold nextCursor
            split <;> omega
          have hge := ih (nextCursor text size ovl start) rest (by omega) hrest
          have harith : ((text.length : Int) - start).toNat + (size - ovl).toNat - 1
              = (((text.length : Int) - nextCursor text size ovl start).toNat +
                 (size - ovl).toNat - 1) + (size - ovl).toNat := by
            omega
          rw [harith, Nat.add_div_right _ hd]
          exact Nat.add_le_add_right hge 1
        · have hmin : min (start + size) (text.length : Int) = (text.length : Int) := by
            omega
          by_cases hg : (text.length : Int) - ovl ≤ start
          · have hval : nextCursor text size ovl start = (text.length : Int) := by
              unfold nextCursor
              rw [hmin, if_pos hg]
            rw [hval] at hnxL
            omega
          have hnxval : nextCursor text size ovl start = (text.length : Int) - ovl := by
            unfold nextCursor
            rw [hmin, if_neg hg]
          cases n with
          | zero =>
            rw [chunkLoop, if_pos hnxL] at hrest
            exact absurd hrest (by simp)
          | succ n2 =>
            rw [chunkLoop, if_pos hnxL, Option.map_eq_some'] at hrest
            obtain ⟨rest2, hrest2, hcons⟩ := hrest
            have hnx2 : nextCursor text size ovl (nextCursor text size ovl start)
                = (text.length : Int) := by
              rw [hnxval]
              unfold nextCursor
              split <;> omega
            rw [hnx2, chunkLoop_of_ge text size ovl n2 _ (by omega)] at hrest2
            injection hrest2 with h2
            rw [← hcons, ← h2, List.length_cons, List.length_nil]
            have h1d : 1 ≤ (((text.length : Int) - start).toNat +
                (size - ovl).toNat - 1) / (size - ovl).toNat :=
              (Nat.le_div_iff_mul_le hd).mpr (by omega)
            exact Nat.add_le_add_right h1d 1
      · have hrest0 : rest = [] := by
          rw [chunkLoop_of_ge text size ovl n _ hnxL] at hrest
          injection hrest with h
          exact h.symm
        rw [hrest0, List.length_nil]
        exact Nat.le_add_left 1 _
    case isFalse hL =>
      injection hEq with h
      rw [← h]
      exact Nat.zero_le _

/-- Lower bound on the number of chunks: with a non-negative overlap the
cursor advances by at most `size` per chunk, so a successful run from cursor
`start` emits at least `floor((len - start) / size)` chunks. -/
theorem chunkLoop_length_ge (text : List Char) (size ovl : Int)
    (hs : 1 ≤ size) (ho : 0 ≤ ovl) :
    ∀ fuel : Nat, ∀ start : Int, ∀ l,
      chunkLoop text size ovl fuel start = some l →
      ((text.length : Int) - start).toNat / size.toNat ≤ l.length := by
  intro fuel
  induction fuel with
  | zero =>
    intro start l hEq
    rw [chunkLoop] at hEq
    split at hEq
    · exact absurd hEq (by simp)
    · injection hEq with h
      rw [← h]
      have h0 : ((text.length : Int) - start).toNat = 0 := by omega
      simp [h0]
  | succ n ih =>
    intro start l hEq
    rw [chunkLoop] at hEq
    split at hEq
    case isTrue hL =>
      rw [Option.map_eq_some'] at hEq
      obtain ⟨rest, hrest, hl⟩ := hEq
      rw [← hl, List.length_cons]
      have hnxle : nextCursor text size ovl start ≤ start + size := by
        unfold nextCursor
        split <;> omega
      have hmono : ((text.length : Int) - start).toNat ≤
          ((text.length : Int) - nextCursor text size ovl start).toNat + size.toNat := by
        omega
      have h2 : ((text.length : Int) - start).toNat / size.toNat ≤
          (((text.length : Int) - nextCursor text size ovl start).toNat +
            size.toNat) / size.toNat :=
        Nat.div_le_div_right hmono
      rw [Nat.add_div_right _ (by omega : 0 < size.toNat)] at h2
      exact le_trans h2 (Nat.add_le_add_right (ih _ rest hrest) 1)
    case isFalse hL =>
      injection hEq with h
      rw [← h]
      have h0 : ((text.length : Int) - start).toNat = 0 := by omega
      simp [h0]

/-- With `overlap >= size >= 1` the guard fires on every iteration, so the
loop behaves exactly as with `overlap = 0`. -/
theorem chunkLoop_ovl_ge (text : List Char) (size ovl : Int)
    (hs : 1 ≤ size) (hos : size ≤ ovl) :
    ∀ fuel : Nat, ∀ start : Int,
      chunkLoop text size ovl fuel start = chunkLoop text size 0 fuel start := by
  intro fuel
  induction fuel with
  | zero =>
    intro start
    rfl
  | succ n ih =>
    intro start
    by_cases hL : start < (text.length : Int)
    · have hcur : nextCursor text size ovl start = nextCursor text size 0 start := by
        unfold nextCursor
        split <;> split <;> omega
      rw [chunkLoop, chunkLoop, if_pos hL, if_pos hL, hcur, ih]
    · rw [chunkLoop, chunkLoop, if_neg hL, if_neg hL]

/-- Claim C2 (amended): the guard guarantees strict cursor advance, and hence
termination of `chunk_text`, whenever `size >= 1` — for every overlap value,
including `overlap >= size`.  The `size >= 1` restriction is necessary: with
`size = 0` and `overlap = 0` on a nonempty text the cursor stalls and the
loop never terminates (see the counterexample theorem). -/
theorem chunk_advances_and_terminates_of_size_pos (text : List Char)
    (size ovl start : Int) (hs : 1 ≤ size) (h0 : 0 ≤ start)
    (hL : start < (text.length : Int)) :
    start < nextCursor text size ovl start ∧
      (chunk_text text size ovl).isSome :=
  ⟨nextCursor_gt text size ovl start hs hL,
   chunkLoop_isSome text size ovl hs (text.length + 1) 0 (by omega)⟩

/-- Witness for the amended C2 at `text = "ab"`, `size = 1`, `overlap = 0`,
cursor `0`. -/
theorem chunk_advances_and_terminates_witness :
    (0 : Int) < nextCursor ("ab").toList 1 0 0 ∧
      (chunk_text ("ab").toList 1 0).isSome :=
  chunk_advances_and_terminates_of_size_pos ("ab").toList 1 0 0
    (by decide) (by decide) (by decide)

/-- Claim C3 (counterexample): for the 12-character text with `size = 4`,
`overlap = 1` the chunker emits 5 chunks, one more than the claimed bound
`ceil(12 / 3) = 4`. -/
theorem chunk_count_exceeds_ceil_bound :
    (chunk_text ("abcdefghijkl").toList 4 1).map List.length = some 5 ∧
      ¬ (5 ≤ (12 + (4 - 1) - 1) / (4 - 1)) := by
  refine ⟨by decide, by decide⟩

/-- Claim C3 (amended): with `size = s >= 1` and `0 <= overlap = o < s`,
`chunk_text` emits at most `ceil(L / (s - o)) + 1` chunks (one more than the
spec's bound, to account for the final short chunk the guard can add) and at
least `floor(L / s)` chunks. -/
theorem chunk_count_bounds (text : List Char) (size ovl : Int)
    (hs : 1 ≤ size) (ho : 0 ≤ ovl) (hos : ovl < size) :
    ∃ l, chunk_text text size ovl = some l ∧
      l.length ≤ (text.length + ((size - ovl).toNat - 1)) / (size - ovl).toNat + 1 ∧
      text.length / size.toNat ≤ l.length := by
  have hsome := chunkLoop_isSome text size ovl hs (text.length + 1) 0 (by omega)
  obtain ⟨l, hl⟩ := Option.isSome_iff_exists.mp hsome
  have hle := chunkLoop_length_le text size ovl hs ho hos (text.length + 1) 0 l
    (le_refl 0) hl
  have hge := chunkLoop_length_ge text size ovl hs ho (text.length + 1) 0 l hl
  have e0 : ((text.length : Int) - 0).toNat = text.length := by omega
  rw [e0] at hle hge
  have e1 : text.length + (size - ovl).toNat - 1
      = text.length + ((size - ovl).toNat - 1) := by omega
  rw [e1] at hle
  exact ⟨l, hl, hle, hge⟩

/-- Witness for the amended C3 at `text = "abcde"`, `size = 2`, `overlap = 0`. -/
theorem chunk_count_bounds_witness :
    ∃ l, chunk_text ("abcde").toList 2 0 = some l ∧
      l.length ≤ (("abcde").toList.length + ((2 - 0 : Int).toNat - 1)) /
        (2 - 0 : Int).toNat + 1 ∧
      ("abcde").toList.length / (2 : Int).toNat ≤ l.length :=
  chunk_count_bounds ("abcde").toList 2 0 (by decide) (by decide) (by decide)

/-- Claim C4: with `size >= 1` and `overlap >= 0` every chunk of `chunk_text`
is the exact slice `text[start:end]`, satisfies
`0 <= start < end <= length text` (every chunk is non-empty), and the chunks
appear in non-decreasing start order. -/
theorem chunk_invariants (text : List Char) (size ovl : Int)
    (hs : 1 ≤ size) (ho : 0 ≤ ovl) :
    ∃ l, chunk_text text size ovl = some l ∧
      (∀ c ∈ l, c.1 = pySlice text c.2.1 c.2.2 ∧ 0 ≤ c.2.1 ∧ c.2.1 < c.2.2 ∧
        c.2.2 ≤ (text.length : Int)) ∧
      List.Chain' (fun a b => a.2.1 ≤ b.2.1) l := by
  have hsome := chunkLoop_isSome text size ovl hs (text.length + 1) 0 (by omega)
  obtain ⟨l, hl⟩ := Option.isSome_iff_exists.mp hsome
  obtain ⟨hmem, hchain⟩ :=
    chunkLoop_sound text size ovl hs (text.length + 1) 0 l (le_refl 0) hl
  refine ⟨l, hl, fun c hc => ?_, hchain.imp fun a b hab => le_of_lt hab⟩
  obtain ⟨h1, h2, h3, h4, _⟩ := hmem c hc
  exact ⟨h1, h2, h3, h4⟩

/-- Witness for C4 at `text = "abc"`, `size = 2`, `overlap = 1`. -/
theorem chunk_invariants_witness :
    ∃ l, chunk_text ("abc").toList 2 1 = some l ∧
      (∀ c ∈ l, c.1 = pySlice ("abc").toList c.2.1 c.2.2 ∧ 0 ≤ c.2.1 ∧
        c.2.1 < c.2.2 ∧ c.2.2 ≤ (("abc").toList.length : Int)) ∧
      List.Chain' (fun a b => a.2.1 ≤ b.2.1) l :=
  chunk_invariants ("abc").toList 2 1 (by decide) (by decide)

/-- Claim C7 (counterexample): at `text = "abcd"`, `size = 2`,
`overlap = 2` the chunker neither fails (it returns a series) nor returns the
series of the clamped overlap `size - 1 = 1`: the two series differ. -/
theorem chunk_not_failfast_not_clamped :
    chunk_text ("abcd").toList 2 2 =
      some [(("ab").toList, 0, 2), (("cd").toList, 2, 4)] ∧
    chunk_text ("abcd").toList 2 1 =
      some [(("ab").toList, 0, 2), (("bc").toList, 1, 3),
            (("cd").toList, 2, 4), (("d").toList, 3, 4)] ∧
    ([(("ab").toList, 0, 2), (("cd").toList, 2, 4)] :
        List (List Char × Int × Int)) ≠
      [(("ab").toList, 0, 2), (("bc").toList, 1, 3),
       (("cd").toList, 2, 4), (("d").toList, 3, 4)] := by
  refine ⟨by decide, by decide, by decide⟩

/-- Claim C7 (amended): with `overlap >= size >= 1` the chunker implements
neither documented policy: it silently proceeds (no error value) and returns
the series of `overlap = 0` — zero effective overlap, not `size - 1`. -/
theorem chunk_ovl_ge_size_acts_as_zero (text : List Char) (size ovl : Int)
    (hs : 1 ≤ size) (hos : size ≤ ovl) :
    ∃ l, chunk_text text size ovl = some l ∧ chunk_text text size 0 = some l := by
  have hsome := chunkLoop_isSome text size ovl hs (text.length + 1) 0 (by omega)
  obtain ⟨l, hl⟩ := Option.isSome_iff_exists.mp hsome
  refine ⟨l, hl, ?_⟩
  rw [← hl]
  exact (chunkLoop_ovl_ge text size ovl hs hos (text.length + 1) 0).symm

/-- Witness for the amended C7 at `text = "abcd"`, `size = 2`, `overlap = 5`. -/
theorem chunk_ovl_ge_size_acts_as_zero_witness :
    ∃ l, chunk_text ("abcd").toList 2 5 = some l ∧
      chunk_text ("abcd").toList 2 0 = some l :=
  chunk_ovl_ge_size_acts_as_zero ("abcd").toList 2 5 (by decide) (by decide)

/-- Claim C10: with `size >= 1` and `overlap >= size` the forward-progress
guard fires on every iteration, so `chunk_text text size ovl` returns exactly
the series of `chunk_text text size 0` (zero effective overlap), with no
error raised or reported. -/
theorem chunk_ovl_ge_size_eq_ovl_zero (text : List Char) (size ovl : Int)
    (hs : 1 ≤ size) (hos : size ≤ ovl) :
    chunk_text text size ovl = chunk_text text size 0 :=
  chunkLoop_ovl_ge text size ovl hs hos (text.length + 1) 0

/-- Witness for C10 at `text = "abcd"`, `size = 2`, `overlap = 2`. -/
theorem chunk_ovl_ge_size_eq_ovl_zero_witness :
    chunk_text ("abcd").toList 2 2 = chunk_text ("abcd").toList 2 0 :=
  chunk_ovl_ge_size_eq_ovl_zero ("abcd").toList 2 2 (by decide) (by decide)

/-- When no chunk starts past the previous end (no gap), the source renderer
and the fully-escaping renderer agree: the unescaped gap branch is dead. -/
theorem highlightParts_eq_spec (text : List Char) :
    ∀ chunks : List (List Char × Int × Int), ∀ idx : Nat, ∀ lastEnd : Int,
      (∀ c ∈ chunks.head?, c.2.1 ≤ lastEnd) →
      List.Chain' (fun a b => b.2.1 ≤ a.2.2) chunks →
      highlightParts text idx lastEnd chunks =
        highlightPartsSpec text idx lastEnd chunks := by
  intro chunks
  induction chunks with
  | nil =>
    intro idx lastEnd _ _
    rfl
  | cons c rest ih =>
    obtain ⟨ct, cs, ce⟩ := c
    intro idx lastEnd hhead hchain
    obtain ⟨hc, hchain2⟩ := List.chain'_cons'.mp hchain
    have hle : cs ≤ lastEnd := hhead (ct, cs, ce) rfl
    have hgap : ¬ lastEnd < cs := by omega
    rw [highlightParts, highlightPartsSpec, if_neg hgap, if_neg hgap]
    simp only [List.nil_append]
    congr 1
    exact ih (idx + 1) ce hc hchain2

/-- Claim C9 (amended): for `size >= 1` and `overlap >= 0` the chunk series
has no gaps, so every segment the highlighter emits (chunk text and trailing
text) passes through the HTML escaping chain: the output coincides with the
fully-escaping renderer of the spec.  (With a negative overlap a gap occurs
and its text is emitted verbatim, unescaped: see the counterexample.) -/
theorem highlight_escapes_all_of_ovl_nonneg (text : List Char) (size ovl : Int)
    (hs : 1 ≤ size) (ho : 0 ≤ ovl) :
    highlight_chunks_html text size ovl = highlightHtmlSpec text size ovl := by
  unfold highlight_chunks_html highlightHtmlSpec
  cases hEq : chunk_text text size ovl with
  | none => rfl
  | some chunks =>
    simp only [Option.map_some', Option.some.injEq]
    by_cases hnil : chunks = []
    · rw [if_pos hnil, if_pos hnil]
    · rw [if_neg hnil, if_neg hnil]
      congr 1
      apply highlightParts_eq_spec
      · intro c hcmem
        cases chunks with
        | nil => exact absurd rfl hnil
        | cons c0 r0 =>
          simp only [List.head?_cons, Option.mem_def, Option.some.injEq] at hcmem
          have hh := chunkLoop_head text size ovl (text.length + 1) 0 c0 r0 hEq
          rw [hcmem] at hh
          omega
      · exact chunkLoop_gapless text size ovl ho (text.length + 1) 0 chunks hEq

/-- Witness for the amended C9 at `text = "a<b"`, `size = 2`, `overlap = 0`. -/
theorem highlight_escapes_all_witness :
    highlight_chunks_html ("a<b").toList 2 0 = highlightHtmlSpec ("a<b").toList 2 0 :=
  highlight_escapes_all_of_ovl_nonneg ("a<b").toList 2 0 (by decide) (by decide)

/-- Claim C9 (counterexample): with a negative overlap the chunk series has
gaps, and the gap text is emitted verbatim: on `"ab<cd<ef"` with `size = 2`,
`overlap = -1` the output differs from the fully-escaping renderer (the two
gap characters `<` appear unescaped between the spans). -/
theorem highlight_gap_unescaped :
    highlight_chunks_html ("ab<cd<ef").toList 2 (-1) ≠
      highlightHtmlSpec ("ab<cd<ef").toList 2 (-1) := by
  decide

/-- Claim C5 (counterexample): `clean_text` on
`"Hello\nworld.\n\nNew paragraph."` with line-break removal does NOT return
`"Hello world.\n\nNew paragraph."`: the blank-line paragraph separator is not
preserved. -/
theorem clean_linebreak_scenario_fails :
    clean_text ("Hello\nworld.\n\nNew paragraph.").toList true true ≠
      ("Hello world.\n\nNew paragraph.").toList := by
  decide

/-- Claim C5 (amended): for either value of `remove_headers`, the result is
`"Hello world. New paragraph."`: the single soft line break becomes a space as
claimed, but the blank line after `"world."` is then swallowed by the
punctuation-spacing stage (`([.,!?;:])\s*` matches the period and the two
line breaks after it and rewrites them to a period and one space), so the
paragraph separator is replaced by a single space. -/
theorem clean_linebreak_scenario_actual :
    clean_text ("Hello\nworld.\n\nNew paragraph.").toList true true =
      ("Hello world. New paragraph.").toList ∧
    clean_text ("Hello\nworld.\n\nNew paragraph.").toList true false =
      ("Hello world. New paragraph.").toList := by
  refine ⟨by decide, by decide⟩

/-- Claim C6 (counterexample): `clean_text` on the three joined lines with
`remove_headers = true` does not return only the middle sentence. -/
theorem clean_header_scenario_fails :
    clean_text
      ("Page 3\nThis is a real sentence with enough length to survive.\n12").toList
      false true ≠
      ("This is a real sentence with enough length to survive.").toList := by
  decide

/-- Claim C6 (amended): the result is
`"This is a real sentence with enough length to survive. 12"`: the short line
`"Page 3"` is dropped, but the page-number line `"12"` survives, because the
punctuation-spacing stage runs before header removal and rewrites the line
break after `"survive."` to a space, merging `"12"` onto the long line, which
is then kept whole. -/
theorem clean_header_scenario_actual :
    clean_text
      ("Page 3\nThis is a real sentence with enough length to survive.\n12").toList
      false true =
      ("This is a real sentence with enough length to survive. 12").toList := by
  decide

/-- Claim C8 (counterexample): cleaning is not idempotent.  On
`"aaaaaaaaaa @ aaaaaaaaaaa"` the character filter deletes the `@` between two
single spaces, leaving a double space in the cleaned text; a second pass
collapses it, so the second pass is not a no-op. -/
theorem clean_not_idempotent :
    clean_text (clean_text ("aaaaaaaaaa @ aaaaaaaaaaa").toList true true)
      true true ≠
      clean_text ("aaaaaaaaaa @ aaaaaaaaaaa").toList true true := by
  decide

/-- A plain character (letter, digit or space) is not a line break. -/
theorem plain_no_nl (c : Char) (h : plainChar c = true) : c ≠ '\n' := by
  intro he
  subst he
  exact absurd h (by decide)

/-- A plain character survives the stage-3 character filter. -/
theorem plain_allowed (c : Char) (h : plainChar c = true) :
    isAllowedChar c = true := by
  rcases (by simpa [plainChar, Bool.or_eq_true, decide_eq_true_eq, or_assoc] using h :
      c.isAlpha = true ∨ c.isDigit = true ∨ c = ' ') with h1 | h1 | rfl
  · simp [isAllowedChar, isWordChar, Char.isAlphanum, h1]
  · simp [isAllowedChar, isWordChar, Char.isAlphanum, h1]
  · decide

/-- A plain character is not one of the six stage-4 punctuation marks. -/
theorem plain_no_punct (c : Char) (h : plainChar c = true) :
    isPunct4 c = false := by
  cases hp : isPunct4 c
  · rfl
  · rcases (by simpa [isPunct4, Bool.or_eq_true, decide_eq_true_eq, or_assoc] using hp :
        c = '.' ∨ c = ',' ∨ c = '!' ∨ c = '?' ∨ c = ';' ∨ c = ':') with
      rfl | rfl | rfl | rfl | rfl | rfl <;> exact absurd h (by decide)

/-- Stage 1 is the identity on texts with no line break. -/
theorem foldLineBreaks_id (l : List Char) (hnl : ∀ c ∈ l, c ≠ '\n') :
    ∀ p, foldLineBreaks p l = l := by
  induction l with
  | nil =>
    intro p
    rfl
  | cons c rest ih =>
    intro p
    rw [foldLineBreaks,
      if_neg (fun hcc => hnl c (List.mem_cons_self c rest) hcc.1)]
    rw [ih (fun x hx => hnl x (List.mem_cons_of_mem c hx)) (some c)]

/-- Stage 2 only deletes characters. -/
theorem collapseSpaces_sublist (l : List Char) : (collapseSpaces l).Sublist l := by
  induction l with
  | nil => exact List.Sublist.refl []
  | cons c rest ih =>
    rw [collapseSpaces]
    split
    · exact ih.trans (List.sublist_cons_self c rest)
    · exact ih.cons₂ c

/-- When the first character of the input is not a space, stage 2 keeps it
first. -/
theorem collapseSpaces_head (l : List Char) (h : l.head? ≠ some ' ') :
    (collapseSpaces l).head? = l.head? := by
  cases l with
  | nil => rfl
  | cons c rest =>
    have hc : ¬ (c = ' ' ∧ rest.head? = some ' ') := by
      intro hcc
      exact h (by rw [List.head?_cons, hcc.1])
    rw [collapseSpaces, if_neg hc, List.head?_cons, List.head?_cons]

/-- The output of stage 2 has no two adjacent spaces. -/
theorem collapseSpaces_chain (l : List Char) :
    List.Chain' spaceRel (collapseSpaces l) := by
  induction l with
  | nil => simp [collapseSpaces]
  | cons c rest ih =>
    rw [collapseSpaces]
    split
    · exact ih
    · rename_i hcond
      rw [List.chain'_cons']
      refine ⟨?_, ih⟩
      intro b hb
      by_cases hcsp : c = ' '
      · have hrh : rest.head? ≠ some ' ' := fun hh => hcond ⟨hcsp, hh⟩
        rw [collapseSpaces_head rest hrh] at hb
        intro hx
        exact hrh (by rw [Option.mem_def.mp hb, hx.2])
      · intro hx
        exact hcsp hx.1

/-- Stage 2 is the identity on texts with no two adjacent spaces. -/
theorem collapseSpaces_eq_self (l : List Char)
    (h : List.Chain' spaceRel l) : collapseSpaces l = l := by
  induction l with
  | nil => rfl
  | cons c rest ih =>
    obtain ⟨hhead, hrest⟩ := List.chain'_cons'.mp h
    rw [collapseSpaces, if_neg ?_]
    · rw [ih hrest]
    · intro hcc
      exact hhead ' ' (Option.mem_def.mpr hcc.2) ⟨hcc.1, rfl⟩

/-- In a text with no stage-4 punctuation nothing triggers the stage-4a
lookahead. -/
theorem punctNext_false (l : List Char) (h : ∀ c ∈ l, isPunct4 c = false) :
    punctNext l = false := by
  unfold punctNext
  cases hh : (l.dropWhile isPySpace).head? with
  | none => rfl
  | some p =>
    have hp : p ∈ l :=
      (List.dropWhile_suffix isPySpace).subset
        (List.mem_of_mem_head? (Option.mem_def.mpr hh))
    simp [h p hp]

/-- Stage 4a is the identity on texts with no stage-4 punctuation. -/
theorem stripSpaceBeforePunct_id (l : List Char)
    (h : ∀ c ∈ l, isPunct4 c = false) : stripSpaceBeforePunct l = l := by
  induction l with
  | nil => rfl
  | cons c rest ih =>
    have hrest : ∀ x ∈ rest, isPunct4 x = false :=
      fun x hx => h x (List.mem_cons_of_mem c hx)
    rw [stripSpaceBeforePunct, if_neg ?_]
    · rw [ih hrest]
    · intro hcc
      have h2 := hcc.2
      rw [punctNext_false rest hrest] at h2
      exact Bool.false_ne_true h2

/-- Stage 4b is the identity on texts with no stage-4 punctuation. -/
theorem spaceAfterPunctAux_id (l : List Char)
    (h : ∀ c ∈ l, isPunct4 c = false) : spaceAfterPunctAux false l = l := by
  induction l with
  | nil => rfl
  | cons c rest ih =>
    rw [spaceAfterPunctAux, if_neg (fun hcc => Bool.false_ne_true hcc.1),
      if_neg ?_]
    · rw [ih (fun x hx => h x (List.mem_cons_of_mem c hx))]
    · intro hcc
      have h2 := h c (List.mem_cons_self c rest)
      rw [h2] at hcc
      exact Bool.false_ne_true hcc

/-- Splitting a text with no line break gives a single line. -/
theorem splitNL_single (l : List Char) (h : ∀ c ∈ l, c ≠ '\n') :
    splitNL l = [l] := by
  induction l with
  | nil => rfl
  | cons c rest ih =>
    rw [splitNL, if_neg (h c (List.mem_cons_self c rest))]
    rw [ih (fun x hx => h x (List.mem_cons_of_mem c hx))]

/-- Stage 6 is the identity on texts with no line break. -/
theorem squeezeNLAux_id (l : List Char) (h : ∀ c ∈ l, c ≠ '\n') :
    ∀ n, squeezeNLAux n l = l := by
  induction l with
  | nil =>
    intro n
    rfl
  | cons c rest ih =>
    intro n
    rw [squeezeNLAux, if_neg (h c (List.mem_cons_self c rest))]
    rw [ih (fun x hx => h x (List.mem_cons_of_mem c hx)) 0]

/-- The first surviving character of a `dropWhile` fails the predicate. -/
theorem dropWhile_head_not (p : Char → Bool) (l : List Char) (a : Char)
    (h : (l.dropWhile p).head? = some a) : p a = false := by
  induction l with
  | nil => simp [List.dropWhile] at h
  | cons c r ih =>
    rw [List.dropWhile_cons] at h
    split at h
    · exact ih h
    · rename_i hpc
      rw [List.head?_cons, Option.some.injEq] at h
      rw [← h]
      exact Bool.not_eq_true _ |>.mp hpc

/-- `dropWhile` is the identity when the head already fails the predicate. -/
theorem dropWhile_eq_of_head (p : Char → Bool) (l : List Char)
    (h : ∀ a, l.head? = some a → p a = false) : l.dropWhile p = l := by
  cases l with
  | nil => rfl
  | cons c r =>
    rw [List.dropWhile_cons, if_neg (by simp [h c rfl])]

/-- A nonempty `dropWhile` keeps the last element of the input. -/
theorem dropWhile_getLast (p : Char → Bool) (l : List Char)
    (h : l.dropWhile p ≠ []) : (l.dropWhile p).getLast? = l.getLast? := by
  induction l with
  | nil => simp [List.dropWhile] at h
  | cons c r ih =>
    rw [List.dropWhile_cons] at h ⊢
    split
    · rename_i hpc
      rw [if_pos hpc] at h
      have hr : r ≠ [] := by
        intro hr0
        rw [hr0] at h
        simp [List.dropWhile] at h
      rw [ih h]
      cases r with
      | nil => exact absurd rfl hr
      | cons x r2 => rw [List.getLast?_cons_cons]
    · rfl

/-- `str.strip()` is idempotent. -/
theorem pyStrip_idem (l : List Char) : pyStrip (pyStrip l) = pyStrip l := by
  unfold pyStrip
  have hBrev : (((l.dropWhile isPySpace).reverse.dropWhile isPySpace).reverse).dropWhile
      isPySpace = ((l.dropWhile isPySpace).reverse.dropWhile isPySpace).reverse := by
    apply dropWhile_eq_of_head
    intro a ha
    rw [List.head?_reverse] at ha
    by_cases hBnil : (l.dropWhile isPySpace).reverse.dropWhile isPySpace = []
    · rw [hBnil] at ha
      simp at ha
    · rw [dropWhile_getLast _ _ hBnil, List.getLast?_reverse] at ha
      exact dropWhile_head_not _ _ _ ha
  rw [hBrev, List.reverse_reverse]
  rw [dropWhile_eq_of_head _ _ (fun a ha => dropWhile_head_not _ _ _ ha)]

/-- `str.strip()` only deletes characters. -/
theorem pyStrip_sublist (l : List Char) : (pyStrip l).Sublist l := by
  unfold pyStrip
  have h1 : (l.dropWhile isPySpace).Sublist l := (List.dropWhile_suffix _).sublist
  have h2 : ((l.dropWhile isPySpace).reverse.dropWhile isPySpace).Sublist
      (l.dropWhile isPySpace).reverse := (List.dropWhile_suffix _).sublist
  have h3 := h2.reverse
  rw [List.reverse_reverse] at h3
  exact h3.trans h1

/-- `str.strip()` preserves the no-two-adjacent-spaces invariant. -/
theorem pyStrip_chain (l : List Char) (h : List.Chain' spaceRel l) :
    List.Chain' spaceRel (pyStrip l) := by
  have hsym : ∀ m : List Char, List.Chain' spaceRel m →
      List.Chain' (flip spaceRel) m :=
    fun m hm => hm.imp (fun a b hab hc => hab ⟨hc.2, hc.1⟩)
  unfold pyStrip
  have h1 : List.Chain' spaceRel (l.dropWhile isPySpace) :=
    List.Chain'.suffix h (List.dropWhile_suffix _)
  have h2 : List.Chain' spaceRel (l.dropWhile isPySpace).reverse :=
    List.chain'_reverse.mpr (hsym _ h1)
  have h3 : List.Chain' spaceRel ((l.dropWhile isPySpace).reverse.dropWhile
      isPySpace) := List.Chain'.suffix h2 (List.dropWhile_suffix _)
  exact List.chain'_reverse.mpr (hsym _ h3)

/-- On a plain text (letters, digits, spaces) the whole pipeline with both
flags reduces to: collapse spaces, strip, and keep the line only if it is
longer than 20 characters and not a pure digit run. -/
theorem clean_plain_eval (t : List Char) (hplain : ∀ c ∈ t, plainChar c = true) :
    clean_text t true true =
      if (decide (20 < (pyStrip (collapseSpaces t)).length) &&
          !pyIsDigit (pyStrip (collapseSpaces t))) = true
      then pyStrip (collapseSpaces t) else [] := by
  by_cases ht : t = []
  · subst ht
    decide
  · have hnl : ∀ c ∈ t, c ≠ '\n' := fun c hc => plain_no_nl c (hplain c hc)
    have hmem2 : ∀ c ∈ collapseSpaces t, plainChar c = true :=
      fun c hc => hplain c ((collapseSpaces_sublist t).subset hc)
    have hnp : ∀ c ∈ collapseSpaces t, isPunct4 c = false :=
      fun c hc => plain_no_punct c (hmem2 c hc)
    have hnl2 : ∀ c ∈ collapseSpaces t, c ≠ '\n' :=
      fun c hc => hnl c ((collapseSpaces_sublist t).subset hc)
    unfold clean_text
    rw [if_neg ht]
    show pyStrip (squeezeNL (removeShortLines (spaceAfterPunct
      (stripSpaceBeforePunct
        ((collapseSpaces (foldLineBreaks none t)).filter isAllowedChar))))) = _
    rw [foldLineBreaks_id t hnl none]
    rw [List.filter_eq_self.mpr (fun c hc => plain_allowed c (hmem2 c hc))]
    rw [stripSpaceBeforePunct_id _ hnp]
    show pyStrip (squeezeNL (removeShortLines
      (spaceAfterPunctAux false (collapseSpaces t)))) = _
    rw [spaceAfterPunctAux_id _ hnp]
    unfold removeShortLines
    rw [splitNL_single _ hnl2, List.map_cons, List.map_nil]
    by_cases hcond : (decide (20 < (pyStrip (collapseSpaces t)).length) &&
        !pyIsDigit (pyStrip (collapseSpaces t))) = true
    · rw [List.filter_cons_of_pos
        (p := fun l => decide (20 < l.length) && !pyIsDigit l) hcond,
        List.filter_nil]
      show pyStrip (squeezeNLAux 0 (pyStrip (collapseSpaces t))) = _
      have hnl3 : ∀ c ∈ pyStrip (collapseSpaces t), c ≠ '\n' :=
        fun c hc => hnl2 c ((pyStrip_sublist _).subset hc)
      rw [squeezeNLAux_id _ hnl3 0, pyStrip_idem, if_pos hcond]
    · rw [List.filter_cons_of_neg
        (p := fun l => decide (20 < l.length) && !pyIsDigit l) hcond,
        List.filter_nil]
      rw [if_neg hcond]
      rfl

/-- Claim C8 (amended): on texts made only of ASCII letters, digits and
spaces, cleaning with both flags enabled is idempotent; in general it is not,
because the character filter can leave double spaces behind (see the
counterexample). -/
theorem clean_idempotent_on_plain (t : List Char)
    (hplain : ∀ c ∈ t, plainChar c = true) :
    clean_text (clean_text t true true) true true = clean_text t true true := by
  have h1 := clean_plain_eval t hplain
  by_cases hcond : (decide (20 < (pyStrip (collapseSpaces t)).length) &&
      !pyIsDigit (pyStrip (collapseSpaces t))) = true
  · rw [if_pos hcond] at h1
    rw [h1]
    have hplainc : ∀ x ∈ pyStrip (collapseSpaces t), plainChar x = true :=
      fun x hx =>
        hplain x ((collapseSpaces_sublist t).subset ((pyStrip_sublist _).subset hx))
    have h2 := clean_plain_eval (pyStrip (collapseSpaces t)) hplainc
    have hcs : collapseSpaces (pyStrip (collapseSpaces t)) =
        pyStrip (collapseSpaces t) :=
      collapseSpaces_eq_self _ (pyStrip_chain _ (collapseSpaces_chain t))
    rw [hcs, pyStrip_idem] at h2
    rw [h2, if_pos hcond]
  · rw [if_neg hcond] at h1
    rw [h1]
    rfl

/-- Witness for the amended C8 at a 24-letter plain text. -/
theorem clean_idempotent_witness :
    clean_text (clean_text ("aaaaaaaaaaaaaaaaaaaaaaaa").toList true true)
      true true =
      clean_text ("aaaaaaaaaaaaaaaaaaaaaaaa").toList true true :=
  clean_idempotent_on_plain ("aaaaaaaaaaaaaaaaaaaaaaaa").toList (by decide)
